import Mathlib

/-!
# Verification of the cleanmymac-cli scanning and deletion engine

Shallow embedding of `src/index.js`: the recursive size aggregator
(`getFileSizeRecursive`), the threshold scanner (`findLargeFiles` /
`scanDir`), the cache locator (`scanCacheFiles`), the presentation sort
(`selectFilesToDelete`) and the deletion workflow (`deleteFiles`).

A filesystem is modelled as a finite tree.  Failure modes of the Node
filesystem API are represented explicitly in the tree:
* `statError` — `fs.promises.stat` on this path raises (permission denied,
  vanished path, dangling symlink);
* `unreadableDir` — `stat` succeeds and reports a directory, but
  `fs.promises.readdir` on it raises.
Sizes are natural numbers (JS byte counts are nonnegative).  Paths are
lists of name segments; `path.join(dir, name)` is `dir ++ [name]`.
-/

mutual

inductive FSNode : Type where
  | file : Nat → FSNode
  | dir : FSList → FSNode
  | statError : FSNode
  | unreadableDir : FSNode

inductive FSList : Type where
  | nil : FSList
  | cons : String → FSNode → FSList → FSList

end

/-- One result record, as pushed by both scanners:
`{ path: filePath, size: size, isDirectory: ... }`. -/
structure Entry where
  path : List String
  size : Nat
  isDirectory : Bool
deriving DecidableEq, Repr

/-- `stats.isDirectory()` after a successful `stat`. -/
def isDirLike : FSNode → Bool
  | .dir _ => true
  | .unreadableDir => true
  | _ => false

/-- Whether `fs.promises.stat` on this node raises. -/
def isStatError : FSNode → Bool
  | .statError => true
  | _ => false

/-- `stats.size` as reported for a non-directory node. -/
def statSize : FSNode → Nat
  | .file s => s
  | _ => 0

mutual

/-- `getFileSizeRecursive` from `src/index.js:28-49`: stat the path
(failure gives 0), for a directory sum the recursive sizes of all
children (enumeration failure gives 0), for a file return `stats.size`.
The function is total: every error path of the source returns 0. -/
def getFileSizeRecursive : FSNode → Nat
  | .file s => s
  | .dir cs => sumChildSizes cs
  | .statError => 0
  | .unreadableDir => 0

/-- The `files.map(getFileSizeRecursive).reduce((acc, size) => acc + size, 0)`
over the children of a directory. -/
def sumChildSizes : FSList → Nat
  | .nil => 0
  | .cons _ c rest => getFileSizeRecursive c + sumChildSizes rest

end

mutual

/-- Spec side, for claim C1 only: the sizes of all readable leaf files
reachable from a node, where a node whose stat or enumeration fails
contributes nothing.  Follows the spec's words, to be compared with the
source's `getFileSizeRecursive`. -/
def specReadableLeafSizes : FSNode → List Nat
  | .file s => [s]
  | .dir cs => specReadableLeafSizesL cs
  | .statError => []
  | .unreadableDir => []

/-- Readable leaf sizes of a list of children, in order. -/
def specReadableLeafSizesL : FSList → List Nat
  | .nil => []
  | .cons _ c rest => specReadableLeafSizes c ++ specReadableLeafSizesL rest

end

/-- The `for (const file of files)` loop body of `scanDir`
(`src/index.js:60-96`).  Per child: `stat` (failure is caught per child
and skips it); a directory is aggregated with `getFileSizeRecursive` and
either pushed (when the aggregate reaches `sizeThreshold = t`, returning
early once `results.length >= listLimit = l`) or recursed into; a file
is pushed when `stats.size` reaches the threshold.  The shared mutable
`results` array is passed as `acc`.  The early `return results` after a
push exits only the current invocation of `scanDir`; the recursive
call's return value is ignored by the source, so only its mutation of
`results` (the returned accumulator) survives.  The recursive
`await scanDir(filePath)` is inlined here as the match on `c`, which is
exactly `scanDir`'s dispatch: `readdir` succeeds on a plain directory
and the loop runs on its children, and raises on anything else, leaving
`results` unchanged. -/
def scanChildren (t l : Nat) : List String → FSList → List Entry → List Entry
  | _, .nil, acc => acc
  | p, .cons name c rest, acc =>
    if isStatError c then
      scanChildren t l p rest acc
    else if isDirLike c then
      if t ≤ getFileSizeRecursive c then
        let acc2 := acc ++ [Entry.mk (p ++ [name]) (getFileSizeRecursive c) true]
        if l ≤ acc2.length then acc2 else scanChildren t l p rest acc2
      else
        scanChildren t l p rest
          (match c with
            | .dir ds => scanChildren t l (p ++ [name]) ds acc
            | _ => acc)
    else
      if t ≤ statSize c then
        let acc2 := acc ++ [Entry.mk (p ++ [name]) (statSize c) false]
        if l ≤ acc2.length then acc2 else scanChildren t l p rest acc2
      else
        scanChildren t l p rest acc

/-- `scanDir` from `src/index.js:56-100`: `readdir` the directory (which
raises unless the node is an enumerable directory; the failure is caught
and leaves the shared `results` array unchanged), then run the child
loop. -/
def scanDir (t l : Nat) (p : List String) (node : FSNode) (acc : List Entry) : List Entry :=
  match node with
  | .dir cs => scanChildren t l p cs acc
  | _ => acc

/-- `findLargeFiles` from `src/index.js:52-111`: scan the (already
home-expanded and located) root directory with an empty result list.
The root is given as its node together with its path. -/
def findLargeFiles (root : FSNode) (rootPath : List String) (listLimit sizeThreshold : Nat) :
    List Entry :=
  scanDir sizeThreshold listLimit rootPath root []

/-- Concatenation of child listings (used to state the early-exit
property of `scanDir`). -/
def FSList.append : FSList → FSList → FSList
  | .nil, ds => ds
  | .cons n c rest, ds => .cons n c (FSList.append rest ds)

/-- Directory-entry lookup by name, first match (`path.join(dir, name)`
resolution inside a listed directory). -/
def findChild : FSList → String → Option FSNode
  | .nil, _ => none
  | .cons m c rest, n => if m = n then some c else findChild rest n

/-- Resolve a path from a root node, segment by segment. -/
def lookupNode : FSNode → List String → Option FSNode
  | node, [] => some node
  | .dir cs, n :: rest =>
    match findChild cs n with
    | some c => lookupNode c rest
    | none => none
  | _, _ :: _ => none

/-- `fs.existsSync`: true when the path resolves and `stat` succeeds. -/
def existsS (fs : FSNode) (p : List String) : Bool :=
  match lookupNode fs p with
  | some .statError => false
  | some _ => true
  | none => false

/-- Membership of a named child in a directory listing. -/
def childMem (n : String) (c : FSNode) : FSList → Prop
  | .nil => False
  | .cons m d rest => (n = m ∧ c = d) ∨ childMem n c rest

/-- The inner `for (const file of files)` loop shared by both branches of
`scanCacheFiles` (`src/index.js:132-147` and `154-166`): per child of a
cache root, `stat` (NOT wrapped in a per-child try: a failure raises out
to the per-root catch, aborting the rest of this root), size the child
(recursively for directories) and push it when the size reaches the
threshold.  Returns the entries pushed before any failure, and whether
the loop completed without raising. -/
def scanCacheChildren (t : Nat) (basePath : List String) : FSList → List Entry × Bool
  | .nil => ([], true)
  | .cons n c rest =>
    if isStatError c then ([], false)
    else
      let size := if isDirLike c then getFileSizeRecursive c else statSize c
      let push := if t ≤ size then [Entry.mk (basePath ++ [n]) size (isDirLike c)] else []
      let res := scanCacheChildren t basePath rest
      (push ++ res.1, res.2)

/-- The `for (const item of items)` loop of the glob branch of
`scanCacheFiles` (`src/index.js:132-149`): substitute each child name of
the base directory into the `*` position; when the resolved path exists,
`readdir` it (a non-directory raises, aborting the root) and size-check
its children.  A failure aborts the remaining items of this root. -/
def globItems (fs : FSNode) (t : Nat) (base post : List String) : FSList → List Entry × Bool
  | .nil => ([], true)
  | .cons item _ rest =>
    let fullPath := base ++ [item] ++ post
    if existsS fs fullPath then
      match lookupNode fs fullPath with
      | some (.dir cs) =>
        let res := scanCacheChildren t fullPath cs
        if res.2 then
          let res2 := globItems fs t base post rest
          (res.1 ++ res2.1, res2.2)
        else (res.1, false)
      | _ => ([], false)
    else globItems fs t base post rest

/-- The literal branch of `scanCacheFiles` (`src/index.js:150-167`): skip
a missing root silently, `readdir` it (a non-directory raises, caught by
the per-root catch with no entries kept from this root) and size-check
its direct children. -/
def processLiteral (fs : FSNode) (t : Nat) (p : List String) : List Entry :=
  if existsS fs p then
    match lookupNode fs p with
    | some (.dir cs) => (scanCacheChildren t p cs).1
    | _ => []
  else []

/-- The glob branch of `scanCacheFiles` (`src/index.js:124-149`): the
pattern is split at the `*` into the base directory and the trailing
segments. -/
def processGlob (fs : FSNode) (t : Nat) (base post : List String) : List Entry :=
  if existsS fs base then
    match lookupNode fs base with
    | some (.dir items) => (globItems fs t base post items).1
    | _ => []
  else []

/-- A cache-root specification from the `cacheDirs` table
(`src/index.js:20-25`): either a literal path, or a pattern with exactly
one `*` segment split into the part before and after the star. -/
inductive CacheDir : Type where
  | literal : List String → CacheDir
  | glob : List String → List String → CacheDir

/-- Processing of one cache-root specification, with its own try/catch
(`src/index.js:120-170`): any failure inside keeps the entries already
pushed and moves on to the next root. -/
def processCacheDir (fs : FSNode) (t : Nat) : CacheDir → List Entry
  | .literal p => processLiteral fs t p
  | .glob base post => processGlob fs t base post

/-- `scanCacheFiles` from `src/index.js:114-179`: iterate the cache-root
specifications in order, accumulating into the shared `cacheFiles`
array.  The filesystem root and the root table are parameters of the
embedding. -/
def scanCacheFiles (fs : FSNode) : List CacheDir → Nat → List Entry
  | [], _ => []
  | d :: ds, t => processCacheDir fs t d ++ scanCacheFiles fs ds t

/-- Sorted insertion of one entry into a descending-by-size list; the
building block of the embedding of
`files.sort((a, b) => b.size - a.size)` in `src/index.js:184`. -/
def insertBySize (e : Entry) : List Entry → List Entry
  | [] => [e]
  | f :: rest => if e.size ≤ f.size then f :: insertBySize e rest else e :: f :: rest

/-- Embedding of `files.sort((a, b) => b.size - a.size)`: a comparison
sort by descending `size`. -/
def sortBySizeDesc (files : List Entry) : List Entry :=
  files.foldr insertBySize []

/-- The presentation order of `selectFilesToDelete`
(`src/index.js:182-221`): the candidate list is sorted descending by
size before being shown; the interactive selection itself is an external
collaborator. -/
def selectFilesToDelete (files : List Entry) : List Entry :=
  sortBySizeDesc files

/-- Remove the first child with the given name from a listing
(`fs.promises.unlink` / `fs.promises.rm` acting on the parent). -/
def removeChild : FSList → String → FSList
  | .nil, _ => .nil
  | .cons m c rest, n => if m = n then rest else .cons m c (removeChild rest n)

/-- Replace the first child with the given name. -/
def replaceChild : FSList → String → FSNode → FSList
  | .nil, _, _ => .nil
  | .cons m c rest, n, c2 => if m = n then .cons m c2 rest else .cons m c (replaceChild rest n c2)

/-- Removal of the filesystem object at a path: `fs.promises.rm(file,
{recursive: true, force: true})` for directories, `fs.promises.unlink`
for files — both detach the object from its parent directory.  A path
that does not resolve leaves the tree unchanged (the source never calls
this without a successful `stat`). -/
def removePath : FSNode → List String → FSNode
  | fs, [] => fs
  | .dir cs, [n] => .dir (removeChild cs n)
  | .dir cs, n :: rest =>
    match findChild cs n with
    | some c => .dir (replaceChild cs n (removePath c rest))
    | none => .dir cs
  | fs, _ :: _ => fs

/-- `fs.promises.stat` on a path: `none` when the path does not resolve
or the node raises on `stat`. -/
def statPath (fs : FSNode) (p : List String) : Option FSNode :=
  match lookupNode fs p with
  | some .statError => none
  | some n => some n
  | none => none

/-- The `for (const file of files)` deletion loop of `deleteFiles`
(`src/index.js:248-261`): per selected path, `stat` it (a failure
increments the error counter and is caught per item), then remove it and
increment the deleted counter.  Returns the final filesystem and the
`(deletedCount, errorCount)` tally. -/
def deleteLoop : List (List String) → FSNode → Nat → Nat → FSNode × Nat × Nat
  | [], fs, d, e => (fs, d, e)
  | f :: rest, fs, d, e =>
    match statPath fs f with
    | some _ => deleteLoop rest (removePath fs f) (d + 1) e
    | none => deleteLoop rest fs d (e + 1)

/-- `deleteFiles` from `src/index.js:224-264`: an empty selection
reports and returns; the confirmation prompt (an external collaborator,
modelled by the `confirm` argument) returning no aborts; otherwise every
selected path is processed independently. -/
def deleteFiles (files : List (List String)) (confirm : Bool) (fs : FSNode) :
    FSNode × Nat × Nat :=
  if files.length = 0 then (fs, 0, 0)
  else if confirm = false then (fs, 0, 0)
  else deleteLoop files fs 0 0

/-- Computable test for `q` lying at or below `p` in the path order. -/
def ancestorCheck : List String → List String → Bool
  | [], _ => true
  | _ :: _, [] => false
  | a :: p, b :: q => a == b && ancestorCheck p q

/-- `p` is an ancestor of (or equal to) `q`: `q` extends `p`. -/
def isAncestor (p q : List String) : Prop := ancestorCheck p q = true

instance (p q : List String) : Decidable (isAncestor p q) := by
  unfold isAncestor; infer_instance

/-- Two paths name disjoint filesystem objects: neither lies at or below
the other. -/
def pathsIncomp (p q : List String) : Prop := ¬ isAncestor p q ∧ ¬ isAncestor q p

instance (p q : List String) : Decidable (pathsIncomp p q) := by
  unfold pathsIncomp; infer_instance

/-- Whether a listing already contains a child of the given name. -/
def hasName : FSList → String → Bool
  | .nil, _ => false
  | .cons m _ rest, n => m == n || hasName rest n

mutual

/-- Well-formedness of a filesystem tree: within every directory
listing, child names are pairwise distinct (as `readdir` guarantees). -/
def nodupFS : FSNode → Bool
  | .dir cs => nodupChildren cs
  | _ => true

/-- Well-formedness of a directory listing. -/
def nodupChildren : FSList → Bool
  | .nil => true
  | .cons n c rest => !hasName rest n && nodupFS c && nodupChildren rest

end

/-- The listing a `readdir` of this node yields (empty when `readdir`
raises or the node is not a directory). -/
def childrenOf : FSNode → FSList
  | .dir cs => cs
  | _ => .nil

/-! Concrete trees used by witnesses and counterexamples. -/

/-- A root with a single large file. -/
def demoTree : FSNode := .dir (.cons "a" (.file 10) .nil)

/-- Extra children appended after the point where the scan stops. -/
def demoExtra : FSList := .cons "b" (.file 20) .nil

/-- A root with a single large subdirectory. -/
def demoDirTree : FSNode := .dir (.cons "d" (.dir (.cons "x" (.file 10) .nil)) .nil)

/-- A directory whose aggregate size is small. -/
def smallDir : FSNode := .dir (.cons "x" (.file 1) .nil)

/-- Two cache roots: the first has a child whose `stat` raises listed
before a large child, the second has only a large child. -/
def cacheDemoFs : FSNode :=
  .dir (.cons "root1" (.dir (.cons "bad" .statError (.cons "big" (.file 100) .nil)))
    (.cons "root2" (.dir (.cons "big2" (.file 100) .nil)) .nil))

/-- The cache-root table for the cache counterexample. -/
def cacheDemoDirs : List CacheDir := [.literal ["root1"], .literal ["root2"]]

/-- Three small files, for the deletion witnesses. -/
def delDemoFs : FSNode :=
  .dir (.cons "a" (.file 1) (.cons "b" (.file 2) (.cons "c" (.file 3) .nil)))

/-! ## Lemmas about the size aggregator -/

mutual

theorem size_eq_leaves_sum : ∀ node : FSNode,
    getFileSizeRecursive node = (specReadableLeafSizes node).sum
  | .file s => by simp [getFileSizeRecursive, specReadableLeafSizes]
  | .dir cs => by
      rw [getFileSizeRecursive, specReadableLeafSizes]
      exact sizeL_eq_leaves_sum cs
  | .statError => by simp [getFileSizeRecursive, specReadableLeafSizes]
  | .unreadableDir => by simp [getFileSizeRecursive, specReadableLeafSizes]

theorem sizeL_eq_leaves_sum : ∀ cs : FSList,
    sumChildSizes cs = (specReadableLeafSizesL cs).sum
  | .nil => by simp [sumChildSizes, specReadableLeafSizesL]
  | .cons n c rest => by
      rw [sumChildSizes, specReadableLeafSizesL]
      rw [List.sum_append, size_eq_leaves_sum c, sizeL_eq_leaves_sum rest]

end

/-! ## Step equations for the threshold scanner -/

theorem scanChildren_nil (t l : Nat) (p : List String) (acc : List Entry) :
    scanChildren t l p .nil acc = acc := rfl

theorem scanChildren_consFile (t l : Nat) (p : List String) (name : String) (s : Nat)
    (rest : FSList) (acc : List Entry) :
    scanChildren t l p (.cons name (.file s) rest) acc =
      (if t ≤ s then
        (if l ≤ (acc ++ [Entry.mk (p ++ [name]) s false]).length then
          acc ++ [Entry.mk (p ++ [name]) s false]
        else scanChildren t l p rest (acc ++ [Entry.mk (p ++ [name]) s false]))
      else scanChildren t l p rest acc) := rfl

theorem scanChildren_consDir (t l : Nat) (p : List String) (name : String) (ds : FSList)
    (rest : FSList) (acc : List Entry) :
    scanChildren t l p (.cons name (.dir ds) rest) acc =
      (if t ≤ getFileSizeRecursive (.dir ds) then
        (if l ≤ (acc ++ [Entry.mk (p ++ [name]) (getFileSizeRecursive (.dir ds)) true]).length then
          acc ++ [Entry.mk (p ++ [name]) (getFileSizeRecursive (.dir ds)) true]
        else scanChildren t l p rest
          (acc ++ [Entry.mk (p ++ [name]) (getFileSizeRecursive (.dir ds)) true]))
      else scanChildren t l p rest (scanChildren t l (p ++ [name]) ds acc)) := rfl

theorem scanChildren_consStatError (t l : Nat) (p : List String) (name : String)
    (rest : FSList) (acc : List Entry) :
    scanChildren t l p (.cons name .statError rest) acc = scanChildren t l p rest acc := rfl

theorem scanChildren_consUnreadable (t l : Nat) (p : List String) (name : String)
    (rest : FSList) (acc : List Entry) :
    scanChildren t l p (.cons name .unreadableDir rest) acc =
      (if t ≤ 0 then
        (if l ≤ (acc ++ [Entry.mk (p ++ [name]) 0 true]).length then
          acc ++ [Entry.mk (p ++ [name]) 0 true]
        else scanChildren t l p rest (acc ++ [Entry.mk (p ++ [name]) 0 true]))
      else scanChildren t l p rest acc) := rfl

theorem scanDir_dirStep (t l : Nat) (p : List String) (cs : FSList) (acc : List Entry) :
    scanDir t l p (.dir cs) acc = scanChildren t l p cs acc := rfl

/-! ## The threshold scanner below an under-threshold directory

The aggregate size of a directory bounds the aggregate size of every
node reachable inside it, so once `scanDir` descends (which it only does
when the aggregate is strictly below the threshold) nothing further can
reach the threshold: the recursive call returns its accumulator
unchanged. -/

theorem scanChildren_under : ∀ (t l : Nat) (p : List String) (cs : FSList) (acc : List Entry),
    sumChildSizes cs < t → scanChildren t l p cs acc = acc
  | _, _, _, .nil, _, _ => rfl
  | t, l, p, .cons name c rest, acc, h => by
      rw [sumChildSizes] at h
      have hc : getFileSizeRecursive c < t := by omega
      have hrest : sumChildSizes rest < t := by omega
      have hnle : ¬ t ≤ getFileSizeRecursive c := Nat.not_le.mpr hc
      cases c with
      | file s =>
          rw [scanChildren_consFile]
          have hs : ¬ t ≤ s := by rw [getFileSizeRecursive] at hnle; exact hnle
          rw [if_neg hs]
          exact scanChildren_under t l p rest acc hrest
      | dir ds =>
          rw [scanChildren_consDir, if_neg hnle]
          rw [scanChildren_under t l (p ++ [name]) ds acc
            (by rw [getFileSizeRecursive] at hc; exact hc)]
          exact scanChildren_under t l p rest acc hrest
      | statError =>
          rw [scanChildren_consStatError]
          exact scanChildren_under t l p rest acc hrest
      | unreadableDir =>
          rw [scanChildren_consUnreadable]
          have hz : ¬ t ≤ 0 := by rw [getFileSizeRecursive] at hnle; exact hnle
          rw [if_neg hz]
          exact scanChildren_under t l p rest acc hrest

theorem scanDir_under (t l : Nat) (p : List String) (node : FSNode) (acc : List Entry)
    (h : getFileSizeRecursive node < t) : scanDir t l p node acc = acc := by
  cases node with
  | dir cs =>
      rw [scanDir_dirStep]
      exact scanChildren_under t l p cs acc (by rw [getFileSizeRecursive] at h; exact h)
  | file s => rfl
  | statError => rfl
  | unreadableDir => rfl

/-! ## Shape of the entries the threshold scanner emits

Every entry the child loop appends is a direct child of the directory
being scanned, sized by the aggregator, at or above the threshold.
Nothing deeper is ever appended, precisely because descent only happens
below the threshold. -/

theorem childMem_cons (n : String) (c : FSNode) (m : String) (d : FSNode) (rest : FSList) :
    childMem n c (.cons m d rest) ↔ (n = m ∧ c = d) ∨ childMem n c rest := Iff.rfl

theorem scanChildren_emits : ∀ (t l : Nat) (p : List String) (cs : FSList) (acc : List Entry),
    ∃ new, scanChildren t l p cs acc = acc ++ new ∧
      ∀ e ∈ new, ∃ n c, childMem n c cs ∧ e.path = p ++ [n] ∧
        e.size = getFileSizeRecursive c ∧ t ≤ e.size ∧ e.isDirectory = isDirLike c
  | t, l, p, .nil, acc => ⟨[], by rw [scanChildren_nil, List.append_nil], by simp⟩
  | t, l, p, .cons name c rest, acc => by
      have weaken : ∀ (new : List Entry),
          (∀ e ∈ new, ∃ n c2, childMem n c2 rest ∧ e.path = p ++ [n] ∧
            e.size = getFileSizeRecursive c2 ∧ t ≤ e.size ∧ e.isDirectory = isDirLike c2) →
          ∀ e ∈ new, ∃ n c2, childMem n c2 (.cons name c rest) ∧ e.path = p ++ [n] ∧
            e.size = getFileSizeRecursive c2 ∧ t ≤ e.size ∧ e.isDirectory = isDirLike c2 := by
        intro new hp e he
        obtain ⟨n, c2, hm, h1, h2, h3, h4⟩ := hp e he
        exact ⟨n, c2, Or.inr hm, h1, h2, h3, h4⟩
      cases c with
      | statError =>
          obtain ⟨new, heq, hprop⟩ := scanChildren_emits t l p rest acc
          exact ⟨new, by rw [scanChildren_consStatError]; exact heq, weaken new hprop⟩
      | file s =>
          by_cases hts : t ≤ s
          · set e0 : Entry := Entry.mk (p ++ [name]) s false with he0
            by_cases hl : l ≤ (acc ++ [e0]).length
            · refine ⟨[e0], ?_, ?_⟩
              · rw [scanChildren_consFile, if_pos hts, if_pos hl]
              · intro e he
                rw [List.mem_singleton] at he
                subst he
                exact ⟨name, .file s, Or.inl ⟨rfl, rfl⟩, rfl, rfl, hts, rfl⟩
            · obtain ⟨new, heq, hprop⟩ := scanChildren_emits t l p rest (acc ++ [e0])
              refine ⟨e0 :: new, ?_, ?_⟩
              · rw [scanChildren_consFile, if_pos hts, if_neg hl, heq, List.append_assoc]
                rfl
              · intro e he
                rw [List.mem_cons] at he
                rcases he with he | he
                · subst he
                  exact ⟨name, .file s, Or.inl ⟨rfl, rfl⟩, rfl, rfl, hts, rfl⟩
                · exact weaken new hprop e he
          · obtain ⟨new, heq, hprop⟩ := scanChildren_emits t l p rest acc
            exact ⟨new, by rw [scanChildren_consFile, if_neg hts]; exact heq, weaken new hprop⟩
      | dir ds =>
          by_cases hts : t ≤ getFileSizeRecursive (.dir ds)
          · set e0 : Entry := Entry.mk (p ++ [name]) (getFileSizeRecursive (.dir ds)) true with he0
            by_cases hl : l ≤ (acc ++ [e0]).length
            · refine ⟨[e0], ?_, ?_⟩
              · rw [scanChildren_consDir, if_pos hts, if_pos hl]
              · intro e he
                rw [List.mem_singleton] at he
                subst he
                exact ⟨name, .dir ds, Or.inl ⟨rfl, rfl⟩, rfl, rfl, hts, rfl⟩
            · obtain ⟨new, heq, hprop⟩ := scanChildren_emits t l p rest (acc ++ [e0])
              refine ⟨e0 :: new, ?_, ?_⟩
              · rw [scanChildren_consDir, if_pos hts, if_neg hl, heq, List.append_assoc]
                rfl
              · intro e he
                rw [List.mem_cons] at he
                rcases he with he | he
                · subst he
                  exact ⟨name, .dir ds, Or.inl ⟨rfl, rfl⟩, rfl, rfl, hts, rfl⟩
                · exact weaken new hprop e he
          · have hlt : sumChildSizes ds < t := by
              rw [Nat.not_le] at hts
              rw [getFileSizeRecursive] at hts
              exact hts
            obtain ⟨new, heq, hprop⟩ := scanChildren_emits t l p rest acc
            refine ⟨new, ?_, weaken new hprop⟩
            rw [scanChildren_consDir, if_neg hts,
              scanChildren_under t l (p ++ [name]) ds acc hlt]
            exact heq
      | unreadableDir =>
          by_cases hts : t ≤ 0
          · set e0 : Entry := Entry.mk (p ++ [name]) 0 true with he0
            by_cases hl : l ≤ (acc ++ [e0]).length
            · refine ⟨[e0], ?_, ?_⟩
              · rw [scanChildren_consUnreadable, if_pos hts, if_pos hl]
              · intro e he
                rw [List.mem_singleton] at he
                subst he
                exact ⟨name, .unreadableDir, Or.inl ⟨rfl, rfl⟩, rfl, rfl, hts, rfl⟩
            · obtain ⟨new, heq, hprop⟩ := scanChildren_emits t l p rest (acc ++ [e0])
              refine ⟨e0 :: new, ?_, ?_⟩
              · rw [scanChildren_consUnreadable, if_pos hts, if_neg hl, heq, List.append_assoc]
                rfl
              · intro e he
                rw [List.mem_cons] at he
                rcases he with he | he
                · subst he
                  exact ⟨name, .unreadableDir, Or.inl ⟨rfl, rfl⟩, rfl, rfl, hts, rfl⟩
                · exact weaken new hprop e he
          · obtain ⟨new, heq, hprop⟩ := scanChildren_emits t l p rest acc
            exact ⟨new, by rw [scanChildren_consUnreadable, if_neg hts]; exact heq,
              weaken new hprop⟩

theorem scanChildren_cap : ∀ (t l : Nat) (p : List String) (cs : FSList) (acc : List Entry),
    acc.length < l → (scanChildren t l p cs acc).length ≤ l
  | t, l, p, .nil, acc, h => by rw [scanChildren_nil]; omega
  | t, l, p, .cons name c rest, acc, h => by
      cases c with
      | statError =>
          rw [scanChildren_consStatError]
          exact scanChildren_cap t l p rest acc h
      | file s =>
          by_cases hts : t ≤ s
          · rw [scanChildren_consFile, if_pos hts]
            have hlen : (acc ++ [Entry.mk (p ++ [name]) s false]).length = acc.length + 1 := by
              rw [List.length_append, List.length_singleton]
            by_cases hl : l ≤ (acc ++ [Entry.mk (p ++ [name]) s false]).length
            · rw [if_pos hl]; omega
            · rw [if_neg hl]
              exact scanChildren_cap t l p rest _ (by omega)
          · rw [scanChildren_consFile, if_neg hts]
            exact scanChildren_cap t l p rest acc h
      | dir ds =>
          by_cases hts : t ≤ getFileSizeRecursive (.dir ds)
          · rw [scanChildren_consDir, if_pos hts]
            have hlen : (acc ++ [Entry.mk (p ++ [name]) (getFileSizeRecursive (.dir ds))
                true]).length = acc.length + 1 := by
              rw [List.length_append, List.length_singleton]
            by_cases hl : l ≤ (acc ++ [Entry.mk (p ++ [name])
                (getFileSizeRecursive (.dir ds)) true]).length
            · rw [if_pos hl]; omega
            · rw [if_neg hl]
              exact scanChildren_cap t l p rest _ (by omega)
          · have hlt : sumChildSizes ds < t := by
              rw [Nat.not_le, getFileSizeRecursive] at hts
              exact hts
            rw [scanChildren_consDir, if_neg hts,
              scanChildren_under t l (p ++ [name]) ds acc hlt]
            exact scanChildren_cap t l p rest acc h
      | unreadableDir =>
          by_cases hts : t ≤ 0
          · rw [scanChildren_consUnreadable, if_pos hts]
            have hlen : (acc ++ [Entry.mk (p ++ [name]) 0 true]).length = acc.length + 1 := by
              rw [List.length_append, List.length_singleton]
            by_cases hl : l ≤ (acc ++ [Entry.mk (p ++ [name]) 0 true]).length
            · rw [if_pos hl]; omega
            · rw [if_neg hl]
              exact scanChildren_cap t l p rest _ (by omega)
          · rw [scanChildren_consUnreadable, if_neg hts]
            exact scanChildren_cap t l p rest acc h

theorem FSList_append_cons (n : String) (c : FSNode) (rest ds : FSList) :
    FSList.append (.cons n c rest) ds = .cons n c (FSList.append rest ds) := rfl

theorem scanChildren_stop : ∀ (t l : Nat) (p : List String) (cs extra : FSList)
    (acc : List Entry), acc.length < l → l ≤ (scanChildren t l p cs acc).length →
    scanChildren t l p (FSList.append cs extra) acc = scanChildren t l p cs acc
  | t, l, p, .nil, extra, acc, h1, h2 => by
      rw [scanChildren_nil] at h2
      omega
  | t, l, p, .cons name c rest, extra, acc, h1, h2 => by
      rw [FSList_append_cons]
      cases c with
      | statError =>
          rw [scanChildren_consStatError] at h2
          rw [scanChildren_consStatError, scanChildren_consStatError]
          exact scanChildren_stop t l p rest extra acc h1 h2
      | file s =>
          have hlen : (acc ++ [Entry.mk (p ++ [name]) s false]).length = acc.length + 1 := by
            rw [List.length_append, List.length_singleton]
          by_cases hts : t ≤ s
          · rw [scanChildren_consFile, if_pos hts] at h2
            rw [scanChildren_consFile, if_pos hts, scanChildren_consFile, if_pos hts]
            by_cases hl : l ≤ (acc ++ [Entry.mk (p ++ [name]) s false]).length
            · rw [if_pos hl, if_pos hl]
            · rw [if_neg hl] at h2
              rw [if_neg hl, if_neg hl]
              have h1b : (acc ++ [Entry.mk (p ++ [name]) s false]).length < l := by omega
              exact scanChildren_stop t l p rest extra
                (acc ++ [Entry.mk (p ++ [name]) s false]) h1b h2
          · rw [scanChildren_consFile, if_neg hts] at h2
            rw [scanChildren_consFile, if_neg hts, scanChildren_consFile, if_neg hts]
            exact scanChildren_stop t l p rest extra acc h1 h2
      | dir ds =>
          have hlen : (acc ++ [Entry.mk (p ++ [name]) (getFileSizeRecursive (.dir ds))
              true]).length = acc.length + 1 := by
            rw [List.length_append, List.length_singleton]
          by_cases hts : t ≤ getFileSizeRecursive (.dir ds)
          · rw [scanChildren_consDir, if_pos hts] at h2
            rw [scanChildren_consDir, if_pos hts, scanChildren_consDir, if_pos hts]
            by_cases hl : l ≤ (acc ++ [Entry.mk (p ++ [name])
                (getFileSizeRecursive (.dir ds)) true]).length
            · rw [if_pos hl, if_pos hl]
            · rw [if_neg hl] at h2
              rw [if_neg hl, if_neg hl]
              have h1b : (acc ++ [Entry.mk (p ++ [name]) (getFileSizeRecursive (.dir ds))
                  true]).length < l := by omega
              exact scanChildren_stop t l p rest extra
                (acc ++ [Entry.mk (p ++ [name]) (getFileSizeRecursive (.dir ds)) true]) h1b h2
          · have hlt : sumChildSizes ds < t := by
              rw [Nat.not_le, getFileSizeRecursive] at hts
              exact hts
            rw [scanChildren_consDir, if_neg hts,
              scanChildren_under t l (p ++ [name]) ds acc hlt] at h2
            rw [scanChildren_consDir, if_neg hts,
              scanChildren_under t l (p ++ [name]) ds acc hlt,
              scanChildren_consDir, if_neg hts,
              scanChildren_under t l (p ++ [name]) ds acc hlt]
            exact scanChildren_stop t l p rest extra acc h1 h2
      | unreadableDir =>
          have hlen : (acc ++ [Entry.mk (p ++ [name]) 0 true]).length = acc.length + 1 := by
            rw [List.length_append, List.length_singleton]
          by_cases hts : t ≤ 0
          · rw [scanChildren_consUnreadable, if_pos hts] at h2
            rw [scanChildren_consUnreadable, if_pos hts,
              scanChildren_consUnreadable, if_pos hts]
            by_cases hl : l ≤ (acc ++ [Entry.mk (p ++ [name]) 0 true]).length
            · rw [if_pos hl, if_pos hl]
            · rw [if_neg hl] at h2
              rw [if_neg hl, if_neg hl]
              have h1b : (acc ++ [Entry.mk (p ++ [name]) 0 true]).length < l := by omega
              exact scanChildren_stop t l p rest extra
                (acc ++ [Entry.mk (p ++ [name]) 0 true]) h1b h2
          · rw [scanChildren_consUnreadable, if_neg hts] at h2
            rw [scanChildren_consUnreadable, if_neg hts,
              scanChildren_consUnreadable, if_neg hts]
            exact scanChildren_stop t l p rest extra acc h1 h2

theorem scanDir_emits (t l : Nat) (p : List String) (node : FSNode) (acc : List Entry) :
    ∃ new, scanDir t l p node acc = acc ++ new ∧
      ∀ e ∈ new, ∃ n c, childMem n c (childrenOf node) ∧ e.path = p ++ [n] ∧
        e.size = getFileSizeRecursive c ∧ t ≤ e.size ∧ e.isDirectory = isDirLike c := by
  cases node with
  | dir cs => exact scanChildren_emits t l p cs acc
  | file s => exact ⟨[], by rw [List.append_nil]; rfl, by simp⟩
  | statError => exact ⟨[], by rw [List.append_nil]; rfl, by simp⟩
  | unreadableDir => exact ⟨[], by rw [List.append_nil]; rfl, by simp⟩

/-! ## Aggregate size is monotone along paths -/

theorem findChild_size_le : ∀ (cs : FSList) (n : String) (c : FSNode),
    findChild cs n = some c → getFileSizeRecursive c ≤ sumChildSizes cs
  | .nil, n, c, h => by rw [findChild] at h; exact absurd h (by simp)
  | .cons m d rest, n, c, h => by
      rw [findChild] at h
      by_cases hmn : m = n
      · rw [if_pos hmn] at h
        have hdc : d = c := Option.some.inj h
        subst hdc
        rw [sumChildSizes]
        omega
      · rw [if_neg hmn] at h
        have hrec := findChild_size_le rest n c h
        rw [sumChildSizes]
        omega

theorem lookupNode_size_le : ∀ (q : List String) (node m : FSNode),
    lookupNode node q = some m → getFileSizeRecursive m ≤ getFileSizeRecursive node
  | [], node, m, h => by
      rw [lookupNode] at h
      have hnm : node = m := Option.some.inj h
      subst hnm
      exact Nat.le.refl
  | n :: rest, node, m, h => by
      cases node with
      | dir cs =>
          rw [lookupNode] at h
          rcases hf : findChild cs n with _ | c
          · rw [hf] at h
            exact absurd h (by simp)
          · rw [hf] at h
            have h1 := lookupNode_size_le rest c m h
            have h2 := findChild_size_le cs n c hf
            have h3 : getFileSizeRecursive (.dir cs) = sumChildSizes cs := by
              rw [getFileSizeRecursive]
            omega
      | file s =>
          have hn : lookupNode (.file s) (n :: rest) = none := rfl
          rw [hn] at h
          exact absurd h (by simp)
      | statError =>
          have hn : lookupNode FSNode.statError (n :: rest) = none := rfl
          rw [hn] at h
          exact absurd h (by simp)
      | unreadableDir =>
          have hn : lookupNode FSNode.unreadableDir (n :: rest) = none := rfl
          rw [hn] at h
          exact absurd h (by simp)

/-! ## The cache locator only emits entries at or above the threshold -/

theorem scanCacheChildren_nil (t : Nat) (bp : List String) :
    scanCacheChildren t bp .nil = ([], true) := rfl

theorem scanCacheChildren_cons_stat (t : Nat) (bp : List String) (n : String) (c : FSNode)
    (rest : FSList) (h : isStatError c = true) :
    scanCacheChildren t bp (.cons n c rest) = ([], false) := by
  rw [scanCacheChildren]
  rw [if_pos h]

theorem scanCacheChildren_cons_ok (t : Nat) (bp : List String) (n : String) (c : FSNode)
    (rest : FSList) (h : isStatError c = false) :
    scanCacheChildren t bp (.cons n c rest) =
      ((if t ≤ (if isDirLike c then getFileSizeRecursive c else statSize c) then
          [Entry.mk (bp ++ [n]) (if isDirLike c then getFileSizeRecursive c else statSize c)
            (isDirLike c)]
        else []) ++ (scanCacheChildren t bp rest).1,
       (scanCacheChildren t bp rest).2) := by
  rw [scanCacheChildren]
  rw [if_neg (by rw [h]; exact Bool.false_ne_true)]

theorem scanCacheChildren_ge : ∀ (t : Nat) (bp : List String) (cs : FSList) (e : Entry),
    e ∈ (scanCacheChildren t bp cs).1 → t ≤ e.size
  | t, bp, .nil, e, h => by
      rw [scanCacheChildren_nil] at h
      exact absurd h (by simp)
  | t, bp, .cons n c rest, e, h => by
      by_cases hse : isStatError c = true
      · rw [scanCacheChildren_cons_stat t bp n c rest hse] at h
        exact absurd h (by simp)
      · rw [scanCacheChildren_cons_ok t bp n c rest (Bool.not_eq_true _ |>.mp hse)] at h
        rw [List.mem_append] at h
        rcases h with h | h
        · by_cases hts : t ≤ (if isDirLike c then getFileSizeRecursive c else statSize c)
          · rw [if_pos hts] at h
            rw [List.mem_singleton] at h
            subst h
            exact hts
          · rw [if_neg hts] at h
            exact absurd h (by simp)
        · exact scanCacheChildren_ge t bp rest e h

theorem globItems_nil (fs : FSNode) (t : Nat) (base post : List String) :
    globItems fs t base post .nil = ([], true) := rfl

theorem globItems_ge (fs : FSNode) (t : Nat) (base post : List String) :
    ∀ (items : FSList) (e : Entry), e ∈ (globItems fs t base post items).1 → t ≤ e.size
  | .nil, e, h => by
      rw [globItems_nil] at h
      exact absurd h (by simp)
  | .cons item c0 rest, e, h => by
      rw [globItems] at h
      by_cases hex : existsS fs (base ++ [item] ++ post) = true
      · rw [if_pos hex] at h
        rcases hlk : lookupNode fs (base ++ [item] ++ post) with _ | c
        · rw [hlk] at h
          exact absurd h (by simp)
        · rw [hlk] at h
          cases c with
          | dir cs =>
              simp only at h
              by_cases hr : (scanCacheChildren t (base ++ [item] ++ post) cs).2 = true
              · rw [if_pos hr] at h
                rw [List.mem_append] at h
                rcases h with h | h
                · exact scanCacheChildren_ge t (base ++ [item] ++ post) cs e h
                · exact globItems_ge fs t base post rest e h
              · rw [if_neg hr] at h
                exact scanCacheChildren_ge t (base ++ [item] ++ post) cs e h
          | file s => exact absurd h (by simp)
          | statError => exact absurd h (by simp)
          | unreadableDir => exact absurd h (by simp)
      · rw [if_neg hex] at h
        exact globItems_ge fs t base post rest e h

theorem processLiteral_ge (fs : FSNode) (t : Nat) (p : List String) (e : Entry)
    (h : e ∈ processLiteral fs t p) : t ≤ e.size := by
  rw [processLiteral] at h
  by_cases hex : existsS fs p = true
  · rw [if_pos hex] at h
    rcases hlk : lookupNode fs p with _ | c
    · rw [hlk] at h
      exact absurd h (by simp)
    · rw [hlk] at h
      cases c with
      | dir cs => exact scanCacheChildren_ge t p cs e h
      | file s => exact absurd h (by simp)
      | statError => exact absurd h (by simp)
      | unreadableDir => exact absurd h (by simp)
  · rw [if_neg hex] at h
    exact absurd h (by simp)

theorem processGlob_ge (fs : FSNode) (t : Nat) (base post : List String) (e : Entry)
    (h : e ∈ processGlob fs t base post) : t ≤ e.size := by
  rw [processGlob] at h
  by_cases hex : existsS fs base = true
  · rw [if_pos hex] at h
    rcases hlk : lookupNode fs base with _ | c
    · rw [hlk] at h
      exact absurd h (by simp)
    · rw [hlk] at h
      cases c with
      | dir items => exact globItems_ge fs t base post items e h
      | file s => exact absurd h (by simp)
      | statError => exact absurd h (by simp)
      | unreadableDir => exact absurd h (by simp)
  · rw [if_neg hex] at h
    exact absurd h (by simp)

theorem processCacheDir_ge (fs : FSNode) (t : Nat) (d : CacheDir) (e : Entry)
    (h : e ∈ processCacheDir fs t d) : t ≤ e.size := by
  cases d with
  | literal p => exact processLiteral_ge fs t p e h
  | glob base post => exact processGlob_ge fs t base post e h

theorem scanCacheFiles_ge : ∀ (fs : FSNode) (ds : List CacheDir) (t : Nat) (e : Entry),
    e ∈ scanCacheFiles fs ds t → t ≤ e.size
  | fs, [], t, e, h => by
      rw [scanCacheFiles] at h
      exact absurd h (by simp)
  | fs, d :: ds, t, e, h => by
      rw [scanCacheFiles, List.mem_append] at h
      rcases h with h | h
      · exact processCacheDir_ge fs t d e h
      · exact scanCacheFiles_ge fs ds t e h

/-! ## Failures are confined to a single cache root -/

theorem scanCacheFiles_append : ∀ (fs : FSNode) (ds1 ds2 : List CacheDir) (t : Nat),
    scanCacheFiles fs (ds1 ++ ds2) t = scanCacheFiles fs ds1 t ++ scanCacheFiles fs ds2 t
  | fs, [], ds2, t => by rw [scanCacheFiles, List.nil_append, List.nil_append]
  | fs, d :: ds1, ds2, t => by
      rw [List.cons_append, scanCacheFiles, scanCacheFiles,
        scanCacheFiles_append fs ds1 ds2 t, List.append_assoc]

/-! ## The presentation sort yields a descending sequence -/

theorem mem_insertBySize : ∀ (e x : Entry) (l : List Entry),
    x ∈ insertBySize e l → x = e ∨ x ∈ l
  | e, x, [], h => by
      rw [insertBySize, List.mem_singleton] at h
      exact Or.inl h
  | e, x, f :: rest, h => by
      rw [insertBySize] at h
      by_cases hc : e.size ≤ f.size
      · rw [if_pos hc, List.mem_cons] at h
        rcases h with h | h
        · exact Or.inr (by rw [h]; exact List.mem_cons_self f rest)
        · rcases mem_insertBySize e x rest h with h2 | h2
          · exact Or.inl h2
          · exact Or.inr (List.mem_cons_of_mem f h2)
      · rw [if_neg hc, List.mem_cons] at h
        rcases h with h | h
        · exact Or.inl h
        · exact Or.inr h

theorem pairwise_insertBySize : ∀ (e : Entry) (l : List Entry),
    List.Pairwise (fun a b => b.size ≤ a.size) l →
    List.Pairwise (fun a b => b.size ≤ a.size) (insertBySize e l)
  | e, [], _ => by
      rw [insertBySize]
      exact List.Pairwise.cons (by simp) List.Pairwise.nil
  | e, f :: rest, h => by
      rw [List.pairwise_cons] at h
      obtain ⟨hf, hrest⟩ := h
      rw [insertBySize]
      by_cases hc : e.size ≤ f.size
      · rw [if_pos hc, List.pairwise_cons]
        refine ⟨?_, pairwise_insertBySize e rest hrest⟩
        intro b hb
        rcases mem_insertBySize e b rest hb with h2 | h2
        · rw [h2]; exact hc
        · exact hf b h2
      · rw [if_neg hc, List.pairwise_cons]
        refine ⟨?_, List.pairwise_cons.mpr ⟨hf, hrest⟩⟩
        intro b hb
        rw [List.mem_cons] at hb
        rcases hb with hb | hb
        · rw [hb]; exact Nat.le_of_not_le hc
        · exact Nat.le_trans (hf b hb) (Nat.le_of_not_le hc)

theorem pairwise_sortBySizeDesc (files : List Entry) :
    List.Pairwise (fun a b => b.size ≤ a.size) (sortBySizeDesc files) := by
  rw [sortBySizeDesc]
  induction files with
  | nil => exact List.Pairwise.nil
  | cons f rest ih => rw [List.foldr_cons]; exact pairwise_insertBySize f _ ih

/-! ## Paths and the ancestor order -/

theorem ancestorCheck_iff : ∀ (p q : List String), isAncestor p q ↔ ∃ r, q = p ++ r
  | [], q => by
      unfold isAncestor
      constructor
      · intro _; exact ⟨q, rfl⟩
      · intro _; rfl
  | a :: p, [] => by
      unfold isAncestor
      constructor
      · intro h
        exact absurd h (by rw [ancestorCheck]; simp)
      · rintro ⟨r, hr⟩
        exact absurd hr (by simp)
  | a :: p, b :: q => by
      unfold isAncestor
      rw [ancestorCheck, Bool.and_eq_true, beq_iff_eq]
      constructor
      · rintro ⟨hab, hck⟩
        obtain ⟨r, hr⟩ := (ancestorCheck_iff p q).mp hck
        subst hab
        exact ⟨r, by rw [hr, List.cons_append]⟩
      · rintro ⟨r, hr⟩
        injection hr with h1 h2
        exact ⟨h1.symm, (ancestorCheck_iff p q).mpr ⟨r, h2⟩⟩

theorem isAncestor_self_append (p r : List String) : isAncestor p (p ++ r) :=
  (ancestorCheck_iff p (p ++ r)).mpr ⟨r, rfl⟩

theorem isAncestor_rfl (p : List String) : isAncestor p p :=
  (ancestorCheck_iff p p).mpr ⟨[], by rw [List.append_nil]⟩

/-! ## Stat and removal: basic step facts -/

theorem statPath_unfold (fs : FSNode) (p : List String) :
    statPath fs p = (match lookupNode fs p with
      | some .statError => none
      | some n => some n
      | none => none) := by rw [statPath]

theorem statPath_cons_found {cs : FSList} {n : String} {c : FSNode} (p : List String)
    (h : findChild cs n = some c) : statPath (.dir cs) (n :: p) = statPath c p := by
  rw [statPath, statPath, lookupNode, h]

theorem statPath_cons_notfound {cs : FSList} {n : String} (p : List String)
    (h : findChild cs n = none) : statPath (.dir cs) (n :: p) = none := by
  rw [statPath, lookupNode, h]

theorem statPath_cons_file (s : Nat) (n : String) (p : List String) :
    statPath (.file s) (n :: p) = none := rfl

theorem statPath_cons_statError (n : String) (p : List String) :
    statPath FSNode.statError (n :: p) = none := rfl

theorem statPath_cons_unreadable (n : String) (p : List String) :
    statPath FSNode.unreadableDir (n :: p) = none := rfl

theorem statPath_nil_dir (cs : FSList) : statPath (.dir cs) [] = some (.dir cs) := rfl

theorem statPath_nil_file (s : Nat) : statPath (.file s) [] = some (.file s) := rfl

theorem statPath_nil_statError : statPath FSNode.statError [] = none := rfl

theorem statPath_nil_unreadable : statPath FSNode.unreadableDir [] = some .unreadableDir := rfl

theorem removePath_nil (fs : FSNode) : removePath fs [] = fs := by cases fs <;> rfl

theorem removePath_single_dir (cs : FSList) (n : String) :
    removePath (.dir cs) [n] = .dir (removeChild cs n) := rfl

theorem removePath_cons2_dir (cs : FSList) (n r : String) (rs : List String) :
    removePath (.dir cs) (n :: r :: rs) =
      (match findChild cs n with
        | some c => .dir (replaceChild cs n (removePath c (r :: rs)))
        | none => .dir cs) := rfl

theorem removePath_file (s : Nat) (n : String) (p : List String) :
    removePath (.file s) (n :: p) = .file s := rfl

theorem removePath_statError (n : String) (p : List String) :
    removePath FSNode.statError (n :: p) = FSNode.statError := rfl

theorem removePath_unreadable (n : String) (p : List String) :
    removePath FSNode.unreadableDir (n :: p) = FSNode.unreadableDir := rfl

/-! ## Listings: lookup after removal or replacement -/

theorem hasName_false_findChild : ∀ (cs : FSList) (n : String),
    hasName cs n = false → findChild cs n = none
  | .nil, n, _ => rfl
  | .cons m c rest, n, h => by
      rw [hasName, Bool.or_eq_false_iff, beq_eq_false_iff_ne] at h
      rw [findChild, if_neg h.1]
      exact hasName_false_findChild rest n h.2

theorem findChild_removeChild_self : ∀ (cs : FSList) (n : String),
    nodupChildren cs = true → findChild (removeChild cs n) n = none
  | .nil, n, _ => rfl
  | .cons m c rest, n, h => by
      rw [nodupChildren, Bool.and_eq_true, Bool.and_eq_true, Bool.not_eq_true'] at h
      obtain ⟨⟨hname, hc⟩, hrest⟩ := h
      rw [removeChild]
      by_cases hmn : m = n
      · rw [if_pos hmn]
        subst hmn
        exact hasName_false_findChild rest m hname
      · rw [if_neg hmn, findChild, if_neg hmn]
        exact findChild_removeChild_self rest n hrest

theorem findChild_removeChild_ne : ∀ (cs : FSList) (n m : String), m ≠ n →
    findChild (removeChild cs n) m = findChild cs m
  | .nil, n, m, _ => rfl
  | .cons k c rest, n, m, hmn => by
      rw [removeChild]
      by_cases hkn : k = n
      · rw [if_pos hkn, findChild]
        subst hkn
        rw [if_neg (fun hmk => hmn (hmk.symm))]
      · rw [if_neg hkn, findChild, findChild]
        by_cases hkm : k = m
        · rw [if_pos hkm, if_pos hkm]
        · rw [if_neg hkm, if_neg hkm]
          exact findChild_removeChild_ne rest n m hmn

theorem findChild_replaceChild_ne : ∀ (cs : FSList) (n m : String) (x : FSNode), m ≠ n →
    findChild (replaceChild cs n x) m = findChild cs m
  | .nil, n, m, x, _ => rfl
  | .cons k c rest, n, m, x, hmn => by
      rw [replaceChild]
      by_cases hkn : k = n
      · rw [if_pos hkn, findChild, findChild]
        subst hkn
        rw [if_neg (fun hmk => hmn (hmk.symm)), if_neg (fun hmk => hmn (hmk.symm))]
      · rw [if_neg hkn, findChild, findChild]
        by_cases hkm : k = m
        · rw [if_pos hkm, if_pos hkm]
        · rw [if_neg hkm, if_neg hkm]
          exact findChild_replaceChild_ne rest n m x hmn

theorem findChild_replaceChild_self : ∀ (cs : FSList) (n : String) (c x : FSNode),
    findChild cs n = some c → findChild (replaceChild cs n x) n = some x
  | .nil, n, c, x, h => by rw [findChild] at h; exact absurd h (by simp)
  | .cons k d rest, n, c, x, h => by
      rw [findChild] at h
      rw [replaceChild]
      by_cases hkn : k = n
      · rw [if_pos hkn, findChild, if_pos hkn]
      · rw [if_neg hkn, findChild, if_neg hkn]
        rw [if_neg hkn] at h
        exact findChild_replaceChild_self rest n c x h

theorem nodup_findChild : ∀ (cs : FSList) (n : String) (c : FSNode),
    nodupChildren cs = true → findChild cs n = some c → nodupFS c = true
  | .nil, n, c, _, h => by rw [findChild] at h; exact absurd h (by simp)
  | .cons k d rest, n, c, hn, h => by
      rw [nodupChildren, Bool.and_eq_true, Bool.and_eq_true] at hn
      obtain ⟨⟨_, hd⟩, hrest⟩ := hn
      rw [findChild] at h
      by_cases hkn : k = n
      · rw [if_pos hkn] at h
        rw [← Option.some.inj h]
        exact hd
      · rw [if_neg hkn] at h
        exact nodup_findChild rest n c hrest h

/-! ## Removal preserves well-formedness -/

theorem hasName_replaceChild : ∀ (cs : FSList) (n m : String) (x : FSNode),
    hasName (replaceChild cs n x) m = hasName cs m
  | .nil, _, _, _ => rfl
  | .cons k c rest, n, m, x => by
      rw [replaceChild]
      by_cases hkn : k = n
      · rw [if_pos hkn, hasName, hasName]
      · rw [if_neg hkn, hasName, hasName, hasName_replaceChild rest n m x]

theorem hasName_removeChild : ∀ (cs : FSList) (n m : String),
    hasName (removeChild cs n) m = true → hasName cs m = true
  | .nil, _, _, h => h
  | .cons k c rest, n, m, h => by
      rw [removeChild] at h
      rw [hasName, Bool.or_eq_true]
      by_cases hkn : k = n
      · rw [if_pos hkn] at h
        exact Or.inr h
      · rw [if_neg hkn, hasName, Bool.or_eq_true] at h
        rcases h with h | h
        · exact Or.inl h
        · exact Or.inr (hasName_removeChild rest n m h)

theorem nodup_removeChild : ∀ (cs : FSList) (n : String),
    nodupChildren cs = true → nodupChildren (removeChild cs n) = true
  | .nil, _, h => h
  | .cons k c rest, n, h => by
      rw [nodupChildren, Bool.and_eq_true, Bool.and_eq_true, Bool.not_eq_true'] at h
      obtain ⟨⟨hname, hc⟩, hrest⟩ := h
      rw [removeChild]
      by_cases hkn : k = n
      · rw [if_pos hkn]
        exact hrest
      · rw [if_neg hkn, nodupChildren, Bool.and_eq_true, Bool.and_eq_true, Bool.not_eq_true']
        refine ⟨⟨?_, hc⟩, nodup_removeChild rest n hrest⟩
        by_cases hh : hasName (removeChild rest n) k = true
        · exact absurd (hasName_removeChild rest n k hh) (by rw [hname]; simp)
        · exact Bool.not_eq_true _ |>.mp hh
  termination_by cs => cs

theorem nodup_replaceChild : ∀ (cs : FSList) (n : String) (x : FSNode),
    nodupChildren cs = true → nodupFS x = true → nodupChildren (replaceChild cs n x) = true
  | .nil, _, _, h, _ => h
  | .cons k c rest, n, x, h, hx => by
      rw [nodupChildren, Bool.and_eq_true, Bool.and_eq_true, Bool.not_eq_true'] at h
      obtain ⟨⟨hname, hc⟩, hrest⟩ := h
      rw [replaceChild]
      by_cases hkn : k = n
      · rw [if_pos hkn, nodupChildren, Bool.and_eq_true, Bool.and_eq_true, Bool.not_eq_true']
        exact ⟨⟨hname, hx⟩, hrest⟩
      · rw [if_neg hkn, nodupChildren, Bool.and_eq_true, Bool.and_eq_true, Bool.not_eq_true']
        refine ⟨⟨?_, hc⟩, nodup_replaceChild rest n x hrest hx⟩
        rw [hasName_replaceChild rest n k x]
        exact hname

theorem nodupFS_dir (cs : FSList) : nodupFS (.dir cs) = nodupChildren cs := by
  rw [nodupFS]

theorem nodup_removePath : ∀ (p : List String) (fs : FSNode),
    nodupFS fs = true → nodupFS (removePath fs p) = true
  | [], fs, h => by rw [removePath_nil]; exact h
  | [n], fs, h => by
      cases fs with
      | dir cs =>
          rw [removePath_single_dir, nodupFS_dir]
          rw [nodupFS_dir] at h
          exact nodup_removeChild cs n h
      | file s => exact h
      | statError => exact h
      | unreadableDir => exact h
  | n :: r :: rs, fs, h => by
      cases fs with
      | dir cs =>
          rw [removePath_cons2_dir]
          rcases hf : findChild cs n with _ | c
          · exact h
          · rw [nodupFS_dir] at h
            rw [nodupFS_dir]
            exact nodup_replaceChild cs n (removePath c (r :: rs)) h
              (nodup_removePath (r :: rs) c (nodup_findChild cs n c h hf))
      | file s => exact h
      | statError => exact h
      | unreadableDir => exact h

/-! ## Removal affects only the removed subtree -/

theorem removePath_frame : ∀ (q : List String) (fs : FSNode) (p : List String),
    ¬ isAncestor q p → (statPath (removePath fs q) p).isNone = (statPath fs p).isNone
  | [], _, p, h => absurd rfl h
  | n :: rest, fs, p, h => by
      cases fs with
      | file s => rw [removePath_file]
      | statError => rw [removePath_statError]
      | unreadableDir => rw [removePath_unreadable]
      | dir cs =>
          cases rest with
          | nil =>
              rw [removePath_single_dir]
              cases p with
              | nil => rfl
              | cons m ps =>
                  by_cases hmn : m = n
                  · subst hmn
                    exact absurd ((ancestorCheck_iff [m] (m :: ps)).mpr ⟨ps, rfl⟩) h
                  · have hfc := findChild_removeChild_ne cs n m hmn
                    rcases hf : findChild cs m with _ | c
                    · rw [hf] at hfc
                      rw [statPath_cons_notfound ps hfc, statPath_cons_notfound ps hf]
                    · rw [hf] at hfc
                      rw [statPath_cons_found ps hfc, statPath_cons_found ps hf]
          | cons r rs =>
              rw [removePath_cons2_dir]
              rcases hfn : findChild cs n with _ | c
              · rfl
              · cases p with
                | nil => rfl
                | cons m ps =>
                    by_cases hmn : m = n
                    · subst hmn
                      have hx := findChild_replaceChild_self cs m c (removePath c (r :: rs)) hfn
                      rw [statPath_cons_found ps hx, statPath_cons_found ps hfn]
                      refine removePath_frame (r :: rs) c ps ?_
                      intro hanc
                      apply h
                      obtain ⟨r2, hr2⟩ := (ancestorCheck_iff (r :: rs) ps).mp hanc
                      exact (ancestorCheck_iff (m :: r :: rs) (m :: ps)).mpr
                        ⟨r2, by simp [hr2]⟩
                    · have hx := findChild_replaceChild_ne cs n m (removePath c (r :: rs)) hmn
                      rcases hf : findChild cs m with _ | c2
                      · rw [hf] at hx
                        rw [statPath_cons_notfound ps hx, statPath_cons_notfound ps hf]
                      · rw [hf] at hx
                        rw [statPath_cons_found ps hx, statPath_cons_found ps hf]

theorem removePath_kills : ∀ (p : List String) (fs : FSNode), nodupFS fs = true → p ≠ [] →
    statPath (removePath fs p) p = none ∨ statPath fs p = none
  | [], _, _, hne => absurd rfl hne
  | [n], fs, hnd, _ => by
      cases fs with
      | dir cs =>
          rw [removePath_single_dir]
          rw [nodupFS_dir] at hnd
          exact Or.inl (statPath_cons_notfound [] (findChild_removeChild_self cs n hnd))
      | file s => exact Or.inr (statPath_cons_file s n [])
      | statError => exact Or.inr (statPath_cons_statError n [])
      | unreadableDir => exact Or.inr (statPath_cons_unreadable n [])
  | n :: r :: rs, fs, hnd, _ => by
      cases fs with
      | dir cs =>
          rw [removePath_cons2_dir]
          rcases hfn : findChild cs n with _ | c
          · exact Or.inr (statPath_cons_notfound (r :: rs) hfn)
          · rw [nodupFS_dir] at hnd
            have hx := findChild_replaceChild_self cs n c (removePath c (r :: rs)) hfn
            rcases removePath_kills (r :: rs) c (nodup_findChild cs n c hnd hfn)
                (by simp) with hk | hk
            · exact Or.inl (by rw [statPath_cons_found (r :: rs) hx]; exact hk)
            · exact Or.inr (by rw [statPath_cons_found (r :: rs) hfn]; exact hk)
      | file s => exact Or.inr (statPath_cons_file s n (r :: rs))
      | statError => exact Or.inr (statPath_cons_statError n (r :: rs))
      | unreadableDir => exact Or.inr (statPath_cons_unreadable n (r :: rs))

/-! ## The deletion loop: every item is processed, independently -/

theorem pathsIncomp_def (p q : List String) :
    pathsIncomp p q ↔ ¬ isAncestor p q ∧ ¬ isAncestor q p := Iff.rfl

theorem isSome_eq_not_isNone (o : Option FSNode) : o.isSome = !o.isNone := by
  cases o <;> rfl

theorem countP_transfer : ∀ (l : List (List String)) (f g : List String → Bool),
    (∀ a ∈ l, f a = g a) → l.countP f = l.countP g
  | [], _, _, _ => rfl
  | a :: l, f, g, h => by
      rw [List.countP_cons, List.countP_cons, h a (List.mem_cons_self a l),
        countP_transfer l f g (fun b hb => h b (List.mem_cons_of_mem a hb))]

theorem deleteLoop_nil (fs : FSNode) (d e : Nat) : deleteLoop [] fs d e = (fs, d, e) := rfl

theorem deleteLoop_cons_some {fs : FSNode} {f : List String} {c : FSNode}
    (rest : List (List String)) (d e : Nat) (h : statPath fs f = some c) :
    deleteLoop (f :: rest) fs d e = deleteLoop rest (removePath fs f) (d + 1) e := by
  rw [deleteLoop, h]

theorem deleteLoop_cons_none {fs : FSNode} {f : List String}
    (rest : List (List String)) (d e : Nat) (h : statPath fs f = none) :
    deleteLoop (f :: rest) fs d e = deleteLoop rest fs d (e + 1) := by
  rw [deleteLoop, h]

theorem deleteLoop_total : ∀ (files : List (List String)) (fs : FSNode) (d e : Nat),
    (deleteLoop files fs d e).2.1 + (deleteLoop files fs d e).2.2 = d + e + files.length
  | [], fs, d, e => by rw [deleteLoop_nil]; simp
  | f :: rest, fs, d, e => by
      rcases hs : statPath fs f with _ | c
      · rw [deleteLoop_cons_none rest d e hs]
        have hrec := deleteLoop_total rest fs d (e + 1)
        rw [List.length_cons]
        omega
      · rw [deleteLoop_cons_some rest d e hs]
        have hrec := deleteLoop_total rest (removePath fs f) (d + 1) e
        rw [List.length_cons]
        omega

theorem deleteLoop_frame : ∀ (files : List (List String)) (fs : FSNode) (d e : Nat)
    (p : List String), (∀ q ∈ files, ¬ isAncestor q p) →
    (statPath (deleteLoop files fs d e).1 p).isNone = (statPath fs p).isNone
  | [], fs, d, e, p, _ => by rw [deleteLoop_nil]
  | f :: rest, fs, d, e, p, h => by
      rcases hs : statPath fs f with _ | c
      · rw [deleteLoop_cons_none rest d e hs]
        exact deleteLoop_frame rest fs d (e + 1) p
          (fun q hq => h q (List.mem_cons_of_mem f hq))
      · rw [deleteLoop_cons_some rest d e hs]
        rw [deleteLoop_frame rest (removePath fs f) (d + 1) e p
          (fun q hq => h q (List.mem_cons_of_mem f hq))]
        exact removePath_frame f fs p (h f (List.mem_cons_self f rest))

theorem deleteLoop_spec : ∀ (files : List (List String)) (fs : FSNode) (d e : Nat),
    (∀ p ∈ files, p ≠ []) → List.Pairwise pathsIncomp files → nodupFS fs = true →
    (deleteLoop files fs d e).2.1 =
      d + files.countP (fun p => (statPath fs p).isSome) ∧
    (deleteLoop files fs d e).2.2 =
      e + files.countP (fun p => (statPath fs p).isNone) ∧
    ∀ p ∈ files, statPath (deleteLoop files fs d e).1 p = none
  | [], fs, d, e, _, _, _ => by
      rw [deleteLoop_nil]
      exact ⟨by simp, by simp, by simp⟩
  | f :: rest, fs, d, e, hne, hpw, hnd => by
      rw [List.pairwise_cons] at hpw
      obtain ⟨hf, hpw2⟩ := hpw
      have hne2 : ∀ p ∈ rest, p ≠ [] := fun p hp => hne p (List.mem_cons_of_mem f hp)
      rcases hs : statPath fs f with _ | c
      · rw [deleteLoop_cons_none rest d e hs]
        obtain ⟨h1, h2, h3⟩ := deleteLoop_spec rest fs d (e + 1) hne2 hpw2 hnd
        refine ⟨?_, ?_, ?_⟩
        · rw [h1, List.countP_cons]
          simp [hs]
        · rw [h2, List.countP_cons]
          simp only [hs, Option.isNone_none, if_pos]
          omega
        · intro p hp
          rw [List.mem_cons] at hp
          rcases hp with hp | hp
          · subst hp
            have hframe := deleteLoop_frame rest fs d (e + 1) p
              (fun q hq => ((pathsIncomp_def p q).mp (hf q hq)).2)
            rw [hs] at hframe
            exact Option.isNone_iff_eq_none.mp (by rw [hframe]; rfl)
          · exact h3 p hp
      · rw [deleteLoop_cons_some rest d e hs]
        have hnd2 : nodupFS (removePath fs f) = true := nodup_removePath f fs hnd
        have hfr : ∀ p ∈ rest,
            (statPath (removePath fs f) p).isNone = (statPath fs p).isNone :=
          fun p hp => removePath_frame f fs p ((pathsIncomp_def f p).mp (hf p hp)).1
        obtain ⟨h1, h2, h3⟩ := deleteLoop_spec rest (removePath fs f) (d + 1) e hne2 hpw2 hnd2
        refine ⟨?_, ?_, ?_⟩
        · rw [h1, List.countP_cons,
            countP_transfer rest (fun p => (statPath (removePath fs f) p).isSome)
              (fun p => (statPath fs p).isSome) (fun p hp => by
                show (statPath (removePath fs f) p).isSome = (statPath fs p).isSome
                rw [isSome_eq_not_isNone, isSome_eq_not_isNone, hfr p hp])]
          simp only [hs, Option.isSome_some, if_pos]
          omega
        · rw [h2, List.countP_cons,
            countP_transfer rest (fun p => (statPath (removePath fs f) p).isNone)
              (fun p => (statPath fs p).isNone) (fun p hp => hfr p hp)]
          simp [hs]
        · intro p hp
          rw [List.mem_cons] at hp
          rcases hp with hp | hp
          · subst hp
            have hframe := deleteLoop_frame rest (removePath fs p) (d + 1) e p
              (fun q hq => ((pathsIncomp_def p q).mp (hf q hq)).2)
            have hkill : statPath (removePath fs p) p = none := by
              rcases removePath_kills p fs hnd (hne p (List.mem_cons_self p rest)) with hk | hk
              · exact hk
              · rw [hs] at hk
                exact absurd hk (by simp)
            rw [hkill] at hframe
            exact Option.isNone_iff_eq_none.mp (by rw [hframe]; rfl)
          · exact h3 p hp

/-! ## Unfolding facts for the deletion workflow entry point -/

theorem deleteFiles_nil (confirm : Bool) (fs : FSNode) :
    deleteFiles [] confirm fs = (fs, 0, 0) := rfl

theorem deleteFiles_declined : ∀ (files : List (List String)) (fs : FSNode),
    deleteFiles files false fs = (fs, 0, 0)
  | [], _ => rfl
  | _ :: _, _ => rfl

theorem deleteFiles_run (f : List String) (rest : List (List String)) (fs : FSNode) :
    deleteFiles (f :: rest) true fs = deleteLoop (f :: rest) fs 0 0 := rfl

/-! ## Claims -/

/-- Claim C1: for every filesystem tree, `computeSize`
(`getFileSizeRecursive`) applied to any path is total (it is a total
function of the tree by construction: every failure branch of the source
returns 0) and returns the sum of the sizes of all readable leaf files
reachable from that path, where any node whose stat or directory
enumeration fails contributes exactly 0 to the sum without aborting the
sums of its siblings; the result is never negative (it is a `Nat`). -/
theorem c1_computeSize_sums_readable_leaves (node : FSNode) :
    getFileSizeRecursive node = (specReadableLeafSizes node).sum ∧
    0 ≤ getFileSizeRecursive node :=
  ⟨size_eq_leaves_sum node, Nat.zero_le _⟩

/-- Claim C2: every entry emitted by either scanner (`findLargeFiles`
with any threshold, `scanCacheFiles` with any threshold) has `size` at
or above the configured threshold. -/
theorem c2_emitted_ge_threshold (t l : Nat) (root : FSNode) (rootPath : List String)
    (fs : FSNode) (ds : List CacheDir) (e1 e2 : Entry)
    (h1 : e1 ∈ findLargeFiles root rootPath l t) (h2 : e2 ∈ scanCacheFiles fs ds t) :
    t ≤ e1.size ∧ t ≤ e2.size := by
  constructor
  · obtain ⟨new, heq, hprop⟩ := scanDir_emits t l rootPath root []
    rw [findLargeFiles, heq, List.nil_append] at h1
    obtain ⟨n, c, _, _, _, hge, _⟩ := hprop e1 h1
    exact hge
  · exact scanCacheFiles_ge fs ds t e2 h2

/-- Witness for C2 at a concrete tree and cache table. -/
theorem c2_w : (5 : Nat) ≤ (Entry.mk ["root", "a"] 10 false).size ∧
    (5 : Nat) ≤ (Entry.mk ["root2", "big2"] 100 false).size :=
  c2_emitted_ge_threshold 5 1000 demoTree ["root"] cacheDemoFs cacheDemoDirs
    (Entry.mk ["root", "a"] 10 false) (Entry.mk ["root2", "big2"] 100 false)
    (by decide) (by decide)

/-- Counterexample for C3 as stated: with `listLimit = 0` the scan still
pushes one qualifying entry before the cap check runs (the source checks
`results.length >= listLimit` only after a push), so the result exceeds
`listLimit`. -/
theorem c3_cex : ¬ ((findLargeFiles demoTree [] 0 5).length ≤ 0) := by decide

/-- Claim C3, amended: for `listLimit ≥ 1` the result of the threshold
scanner never exceeds `listLimit` entries, and the child loop stops the
moment the count reaches `listLimit`: once the accumulated results reach
the limit, any further directory entries (`extra`) are never visited and
leave the result unchanged. -/
theorem c3_cap_and_stop (t l : Nat) (root : FSNode) (p : List String) :
    (1 ≤ l → (findLargeFiles root p l t).length ≤ l) ∧
    (∀ (cs extra : FSList) (acc : List Entry), acc.length < l →
      l ≤ (scanChildren t l p cs acc).length →
      scanChildren t l p (FSList.append cs extra) acc = scanChildren t l p cs acc) := by
  constructor
  · intro hl
    rw [findLargeFiles]
    cases root with
    | dir cs => exact scanChildren_cap t l p cs [] (by simp; omega)
    | file s => simp [scanDir]
    | statError => simp [scanDir]
    | unreadableDir => simp [scanDir]
  · exact fun cs extra acc h1 h2 => scanChildren_stop t l p cs extra acc h1 h2

/-- Witness for the amended C3: the cap at a concrete tree, and the
early stop leaving appended extra children unvisited. -/
theorem c3_w : (findLargeFiles demoTree [] 2 5).length ≤ 2 ∧
    scanChildren 5 1 [] (FSList.append (.cons "a" (.file 10) .nil) demoExtra) [] =
      scanChildren 5 1 [] (.cons "a" (.file 10) .nil) [] :=
  ⟨(c3_cap_and_stop 5 2 demoTree []).1 (by decide),
   (c3_cap_and_stop 5 1 demoTree []).2 (.cons "a" (.file 10) .nil) demoExtra []
     (by decide) (by decide)⟩

/-- Claim C4: emitting a directory and descending into it are mutually
exclusive, so no strict descendant of an emitted directory is also
emitted: any two emitted entries where the first is a directory and an
ancestor of the second are in fact at the same path. -/
theorem c4_no_descendant_of_emitted (t l : Nat) (root : FSNode) (p : List String)
    (e1 e2 : Entry) (h1 : e1 ∈ findLargeFiles root p l t)
    (h2 : e2 ∈ findLargeFiles root p l t) (hd : e1.isDirectory = true)
    (ha : isAncestor e1.path e2.path) : e1.path = e2.path := by
  obtain ⟨new, heq, hprop⟩ := scanDir_emits t l p root []
  rw [findLargeFiles, heq, List.nil_append] at h1 h2
  obtain ⟨n1, c1, _, hp1, _, _, _⟩ := hprop e1 h1
  obtain ⟨n2, c2, _, hp2, _, _, _⟩ := hprop e2 h2
  obtain ⟨r, hr⟩ := (ancestorCheck_iff e1.path e2.path).mp ha
  rw [hp1, hp2] at hr
  have hlen := congrArg List.length hr
  simp only [List.length_append, List.length_singleton] at hlen
  have hr0 : r = [] := List.length_eq_zero.mp (by omega)
  subst hr0
  rw [List.append_nil] at hr
  rw [hp1, hp2, hr]

/-- Witness for C4 at a concrete tree: the emitted directory is related
to itself by the ancestor order and the conclusion makes the paths
equal. -/
theorem c4_w : (Entry.mk ["r", "d"] 10 true) ∈ findLargeFiles demoDirTree ["r"] 1000 5 ∧
    (Entry.mk ["r", "d"] 10 true).path = (Entry.mk ["r", "d"] 10 true).path :=
  ⟨by decide,
   c4_no_descendant_of_emitted 5 1000 demoDirTree ["r"] (Entry.mk ["r", "d"] 10 true)
     (Entry.mk ["r", "d"] 10 true) (by decide) (by decide) (by decide) (by decide)⟩

/-- Counterexample for C5 as stated: the claimed situation — a directory
whose aggregate size is below the threshold containing a descendant at
or above the threshold — is impossible, because the aggregate size is
monotone along paths.  Hence no tree exists on which the recursion into
an under-threshold directory emits anything. -/
theorem c5_cex : ¬ ∃ (t : Nat) (node m : FSNode) (q : List String),
    getFileSizeRecursive node < t ∧ q ≠ [] ∧ lookupNode node q = some m ∧
    t ≤ getFileSizeRecursive m := by
  rintro ⟨t, node, m, q, h1, _, h3, h4⟩
  have hle := lookupNode_size_le q node m h3
  omega

/-- Claim C5, amended: the scanner does recurse into every
under-threshold directory it encounters to evaluate its children
individually (first conjunct: the child loop continues with the
recursive scan's accumulator), but the recursion is necessarily
vacuous — by monotonicity of the aggregate, an under-threshold directory
has no descendant at or above the threshold, and the recursive scan
returns the accumulator unchanged (second conjunct). -/
theorem c5_recursion_vacuous (t l : Nat) (p : List String) (name : String)
    (ds rest : FSList) (acc : List Entry) (h : getFileSizeRecursive (.dir ds) < t) :
    scanChildren t l p (.cons name (.dir ds) rest) acc =
      scanChildren t l p rest (scanChildren t l (p ++ [name]) ds acc) ∧
    scanChildren t l (p ++ [name]) ds acc = acc := by
  constructor
  · rw [scanChildren_consDir, if_neg (Nat.not_le.mpr h)]
  · exact scanChildren_under t l (p ++ [name]) ds acc
      (by rw [getFileSizeRecursive] at h; exact h)

/-- Witness for the amended C5 at a concrete under-threshold directory. -/
theorem c5_w : scanChildren 5 1000 [] (.cons "s" (.dir (.cons "x" (.file 1) .nil)) .nil) [] =
      scanChildren 5 1000 [] .nil (scanChildren 5 1000 ["s"] (.cons "x" (.file 1) .nil) []) ∧
    scanChildren 5 1000 ["s"] (.cons "x" (.file 1) .nil) [] = [] :=
  c5_recursion_vacuous 5 1000 [] "s" (.cons "x" (.file 1) .nil) .nil [] (by decide)

/-- Counterexample for C6 as stated: in `cacheDemoFs`, cache root
`root1` lists a child whose `stat` raises before a child of size 100;
with threshold 50 the failure aborts the rest of `root1` — the
qualifying child `big` exists but is never emitted — while the second
root is still scanned. -/
theorem c6_cex :
    scanCacheFiles cacheDemoFs cacheDemoDirs 50 = [Entry.mk ["root2", "big2"] 100 false] ∧
    lookupNode cacheDemoFs ["root1", "big"] = some (.file 100) ∧
    (50 : Nat) ≤ 100 ∧
    (Entry.mk ["root1", "big"] 100 false) ∉ scanCacheFiles cacheDemoFs cacheDemoDirs 50 :=
  ⟨by decide, rfl, by decide, by decide⟩

/-- Claim C6, amended: a failure while processing a cache root is
isolated to that root — it aborts the evaluation of that root's
remaining children (entries already pushed are kept), but scanning of
the remaining cache roots is unaffected: the scan of a root table splits
as the concatenation of the scans of its parts, so each root's
contribution is independent of failures in the others. -/
theorem c6_failure_per_root (fs : FSNode) (ds1 ds2 : List CacheDir) (t : Nat) :
    scanCacheFiles fs (ds1 ++ ds2) t = scanCacheFiles fs ds1 t ++ scanCacheFiles fs ds2 t :=
  scanCacheFiles_append fs ds1 ds2 t

/-- Claim C7: the deletion workflow performs zero filesystem mutations
when the selected set is empty or the operator declines the
confirmation: the filesystem component of the result is the input
filesystem, and both counters are zero. -/
theorem c7_no_mutation_when_declined (files : List (List String)) (confirm : Bool)
    (fs : FSNode) (h : files = [] ∨ confirm = false) :
    deleteFiles files confirm fs = (fs, 0, 0) := by
  rcases h with h | h
  · subst h
    exact deleteFiles_nil confirm fs
  · subst h
    exact deleteFiles_declined files fs

/-- Witness for C7: declining the confirmation leaves the filesystem
untouched. -/
theorem c7_w : deleteFiles [["a"]] false delDemoFs = (delDemoFs, 0, 0) :=
  c7_no_mutation_when_declined [["a"]] false delDemoFs (Or.inr rfl)

/-- Claim C8: confirmed deletions are per-item independent.  For every
selection of nonempty, pairwise non-nested paths over a well-formed
tree: every selected path is processed (deleted + failed = selected);
the failure count is exactly the number of selected paths whose `stat`
fails at delete time; in particular if exactly one selected path is
missing then exactly one failure is reported and every other selected
path is deleted; and afterwards no selected path exists any more. -/
theorem c8_deletion_isolated (files : List (List String)) (fs : FSNode)
    (hne : ∀ p ∈ files, p ≠ []) (hpw : List.Pairwise pathsIncomp files)
    (hnd : nodupFS fs = true) :
    ((deleteFiles files true fs).2.1 + (deleteFiles files true fs).2.2 = files.length) ∧
    ((deleteFiles files true fs).2.2 =
      files.countP (fun p => (statPath fs p).isNone)) ∧
    (files.countP (fun p => (statPath fs p).isNone) = 1 →
      (deleteFiles files true fs).2.2 = 1 ∧
      (deleteFiles files true fs).2.1 + 1 = files.length) ∧
    (∀ p ∈ files, statPath (deleteFiles files true fs).1 p = none) := by
  cases files with
  | nil =>
      rw [deleteFiles_nil]
      refine ⟨by simp, by simp, ?_, by simp⟩
      intro hc
      rw [List.countP_nil] at hc
      exact absurd hc (by simp)
  | cons f rest =>
      rw [deleteFiles_run]
      obtain ⟨h1, h2, h3⟩ := deleteLoop_spec (f :: rest) fs 0 0 hne hpw hnd
      have htot := deleteLoop_total (f :: rest) fs 0 0
      refine ⟨by omega, by rw [h2]; omega, ?_, h3⟩
      intro hc
      constructor
      · rw [h2, hc]
      · rw [h2, hc] at htot
        omega

/-- Witness for C8: three selected paths over the demo tree, one of
which (`z`) does not exist; exactly one failure, the other two
deleted. -/
theorem c8_w : (deleteFiles [["a"], ["b"], ["z"]] true delDemoFs).2.2 = 1 ∧
    (deleteFiles [["a"], ["b"], ["z"]] true delDemoFs).2.1 + 1 = 3 :=
  (c8_deletion_isolated [["a"], ["b"], ["z"]] delDemoFs (by decide) (by decide)
    (by decide)).2.2.1 (by decide)

/-- Claim C9: the presented scan result is sorted descending by size:
for every adjacent pair, the earlier entry's size is at least the later
entry's size. -/
theorem c9_presented_sorted_desc (files : List Entry) :
    List.Chain' (fun a b => b.size ≤ a.size) (selectFilesToDelete files) :=
  (pairwise_sortBySizeDesc files).chain'

/-- Claim C10: the threshold scanner never emits the root directory
itself, even when its own aggregate size is at or above the threshold:
every emitted path is a strict descendant of the root path. -/
theorem c10_root_never_emitted (t l : Nat) (root : FSNode) (p : List String) (e : Entry)
    (h : e ∈ findLargeFiles root p l t) : isAncestor p e.path ∧ e.path ≠ p := by
  obtain ⟨new, heq, hprop⟩ := scanDir_emits t l p root []
  rw [findLargeFiles, heq, List.nil_append] at h
  obtain ⟨n, c, _, hpath, _, _, _⟩ := hprop e h
  constructor
  · rw [hpath]
    exact isAncestor_self_append p [n]
  · rw [hpath]
    intro hcontra
    have hlen := congrArg List.length hcontra
    rw [List.length_append, List.length_singleton] at hlen
    omega

/-- Witness for C10: a root whose aggregate exceeds the threshold still
only yields its child, a strict descendant of the root path. -/
theorem c10_w : isAncestor ["root"] (Entry.mk ["root", "a"] 10 false).path ∧
    (Entry.mk ["root", "a"] 10 false).path ≠ ["root"] :=
  c10_root_never_emitted 5 1000 demoTree ["root"] (Entry.mk ["root", "a"] 10 false)
    (by decide)
